import Mathlib

/-!
A verification development for the imploid orchestrator.

The TypeScript sources are shallowly embedded: the state store
(`StateManager`), the persisted-state JSON codec (`IssueState.toJSON`),
the scheduler (`ImploidOrchestrator.scheduleIssues` / `reserveIssueSlots`),
the GitHub label updater (`GitHubClient.updateIssueLabels`), the branch-name
builder (`createIssueBranchName`), the prompt substitution
(`substituteVariables` / `buildIssuePrompt`) and the Codex argv assembly
(`CodexProcessor.processIssue`) become executable Lean definitions, and the
specified properties are proved about them.

Conventions for embedding JavaScript values:
* a JS value that can be `undefined` is an `Option`; a value that can be
  `undefined` or `null` is an `Option (Option _)` (`none` = undefined,
  `some none` = null);
* a JS `Map` is an insertion-ordered association list: `set` overwrites in
  place or appends, `delete` removes;
* a JS `Set` is an insertion-ordered duplicate-free list.
-/

namespace Imploid

/-- JS `Set` semantics applied to a list: keep the first occurrence of each
element, preserving insertion order (`new Set(xs)`). -/
def jsSetList {α : Type} [DecidableEq α] (l : List α) : List α :=
  l.foldl (fun acc a => if a ∈ acc then acc else acc ++ [a]) []

/-- Membership in the accumulator-threaded fold behind `jsSetList`. -/
theorem mem_jsSetList_foldl {α : Type} [DecidableEq α] (l : List α) :
    ∀ (acc : List α) (x : α),
      (x ∈ l.foldl (fun acc a => if a ∈ acc then acc else acc ++ [a]) acc) ↔
        (x ∈ acc ∨ x ∈ l) := by
  induction l with
  | nil => intro acc x; simp
  | cons a l ih =>
      intro acc x
      simp only [List.foldl_cons]
      rw [ih]
      by_cases ha : a ∈ acc
      · simp only [if_pos ha]
        constructor
        · rintro (h | h)
          · exact Or.inl h
          · exact Or.inr (List.mem_cons_of_mem a h)
        · rintro (h | h)
          · exact Or.inl h
          · rcases List.mem_cons.mp h with h | h
            · exact Or.inl (h ▸ ha)
            · exact Or.inr h
      · simp only [if_neg ha, List.mem_append, List.mem_singleton, List.mem_cons]
        tauto

/-- An element belongs to `jsSetList l` exactly when it belongs to `l`. -/
theorem mem_jsSetList {α : Type} [DecidableEq α] (l : List α) (x : α) :
    x ∈ jsSetList l ↔ x ∈ l := by
  unfold jsSetList
  rw [mem_jsSetList_foldl]
  simp

/-- `jsSetList` has no duplicate elements. -/
theorem jsSetList_nodup {α : Type} [DecidableEq α] (l : List α) :
    (jsSetList l).Nodup := by
  unfold jsSetList
  have main : ∀ (l acc : List α), acc.Nodup →
      (l.foldl (fun acc a => if a ∈ acc then acc else acc ++ [a]) acc).Nodup := by
    intro l
    induction l with
    | nil => intro acc h; simpa using h
    | cons a l ih =>
        intro acc h
        simp only [List.foldl_cons]
        by_cases ha : a ∈ acc
        · rw [if_pos ha]; exact ih acc h
        · rw [if_neg ha]
          exact ih (acc ++ [a]) (by simp [List.nodup_append, h, ha])
  exact main l [] List.nodup_nil

/-- A JSON scalar as produced by the state-file serializer. -/
inductive JVal : Type
  | jstr (s : String)
  | jnum (n : Nat)
  | jnull
  deriving DecidableEq, Repr

/-- The `IssueState` record (`models.ts`).  `processor_name` is not declared on
the TypeScript class; the `StateManager` attaches it dynamically, so here it is
a field defaulting to `""` before the store forces it. -/
structure IssueState : Type where
  issue_number : Nat
  status : String
  session_id : Option (Option String) := none
  branch : String := ""
  start_time : String := ""
  agent_index : Option (Option Nat) := none
  repo_name : Option (Option String) := none
  end_time : Option (Option String) := none
  last_output : Option (Option String) := none
  error : Option (Option String) := none
  processor_name : String := ""
  deriving DecidableEq, Repr

/-- The serialized form of a truthiness-guarded optional string field
(`if (this.f) json.f = this.f`): `undefined`, `null` and `""` produce
nothing. -/
def optStrEntry (key : String) (v : Option (Option String)) : List (String × JVal) :=
  match v with
  | some (some s) => if s = "" then [] else [(key, JVal.jstr s)]
  | _ => []

/-- The serialized form of `agent_index`
(`if (this.agent_index !== undefined) json.agent_index = this.agent_index`):
only `undefined` produces nothing; `null` is serialized as JSON `null`. -/
def agentIndexEntry (v : Option (Option Nat)) : List (String × JVal) :=
  match v with
  | none => []
  | some none => [("agent_index", JVal.jnull)]
  | some (some i) => [("agent_index", JVal.jnum i)]

/-- The four unconditionally written fields of `toJSON` — including
`issue_number`. -/
def baseEntries (st : IssueState) : List (String × JVal) :=
  [("issue_number", JVal.jnum st.issue_number),
   ("status", JVal.jstr st.status),
   ("branch", JVal.jstr st.branch),
   ("start_time", JVal.jstr st.start_time)]

/-- `IssueState.toJSON` (`models.ts` lines 167–183): the base fields are always
written — including `issue_number` — then each optional field is appended when
its guard passes.  `session_id`, `repo_name`, `end_time`, `last_output` and
`error` are guarded by truthiness; `agent_index` only by `!== undefined`, so a
`null` agent index is serialized as JSON `null`.  `processor_name` is never
written (it is not a declared field of the class). -/
def IssueState.toJSON (st : IssueState) : List (String × JVal) :=
  baseEntries st
  ++ optStrEntry "session_id" st.session_id
  ++ agentIndexEntry st.agent_index
  ++ optStrEntry "repo_name" st.repo_name
  ++ optStrEntry "end_time" st.end_time
  ++ optStrEntry "last_output" st.last_output
  ++ optStrEntry "error" st.error

/-- A raw state-file record as read back by `StateManager.initialize`: every
field may be absent. -/
structure RawRecord : Type where
  issue_number : Option Nat := none
  processor_name : Option String := none
  status : Option String := none
  session_id : Option (Option String) := none
  branch : Option String := none
  start_time : Option String := none
  agent_index : Option (Option Nat) := none
  repo_name : Option (Option String) := none
  end_time : Option (Option String) := none
  last_output : Option (Option String) := none
  error : Option (Option String) := none
  deriving DecidableEq, Repr

/-- The in-memory store of `StateManager`: a JS `Map` from string keys to
states, kept in insertion order. -/
abbrev StateMap := List (String × IssueState)

/-- `` makeStateKey(issueNumber, processorName) = `${issueNumber}:${processorName}` ``. -/
def makeStateKey (issueNumber : Nat) (processorName : String) : String :=
  toString issueNumber ++ ":" ++ processorName

/-- Split a character list at every occurrence of `c` (JS `String.split`). -/
def splitChar (c : Char) : List Char → List (List Char)
  | [] => [[]]
  | x :: xs =>
      if x = c then [] :: splitChar c xs
      else
        match splitChar c xs with
        | [] => [[x]]
        | s :: ss => (x :: s) :: ss

/-- Models JavaScript `Number()` on state-file keys: a nonempty digit string
parses to its decimal value, the empty string parses to `0` (`Number("")` is
`0`), anything else is `NaN` (`none`).  Other numeric syntaxes accepted by
`Number()` (signs, fractions, exponents, hex) do not occur in keys this
development evaluates and are mapped to `none`. -/
def jsNumberNat : List Char → Option Nat
  | [] => some 0
  | l =>
      if l.all (fun c => c.isDigit) then
        some (l.foldl (fun acc c => acc * 10 + (c.toNat - 48)) 0)
      else none

/-- `parseStateKey` (`stateManager.ts` lines 43–51): a key containing `":"` is
split into its first two segments; an empty processor segment falls back; a
`NaN` issue number is reported as `none` (the caller skips the entry). -/
def parseStateKey (key : String) (fallbackProcessor : String) : Option (Nat × String) :=
  match splitChar ':' key.data with
  | [only] => (jsNumberNat only).map (fun n => (n, fallbackProcessor))
  | rawIssue :: rawProcessor :: _ =>
      (jsNumberNat rawIssue).map
        (fun n => (n, if rawProcessor = [] then fallbackProcessor else String.mk rawProcessor))
  | [] => none

/-- JS `Map.set`: overwrite an existing key in place, else append. -/
def mapSet (m : StateMap) (k : String) (v : IssueState) : StateMap :=
  if m.any (fun e => e.1 == k) then
    m.map (fun e => if e.1 == k then (k, v) else e)
  else m ++ [(k, v)]

/-- JS `Map.delete`. -/
def mapDelete (m : StateMap) (k : String) : StateMap :=
  m.filter (fun e => !(e.1 == k))

/-- JS `Map.get` observed through `StateManager.getState`. -/
def lookupKey (m : StateMap) (k : String) : Option IssueState :=
  (m.find? (fun e => e.1 == k)).map (fun e => e.2)

/-- `StateManager.getState`. -/
def getState (m : StateMap) (issueNumber : Nat) (processorName : String) : Option IssueState :=
  lookupKey m (makeStateKey issueNumber processorName)

/-- `StateManager.setState`: force `processor_name`, then insert under the
composite key. -/
def setState (m : StateMap) (issueNumber : Nat) (processorName : String)
    (st : IssueState) : StateMap :=
  mapSet m (makeStateKey issueNumber processorName) { st with processor_name := processorName }

/-- `StateManager.removeState`. -/
def removeState (m : StateMap) (issueNumber : Nat) (processorName : String) : StateMap :=
  mapDelete m (makeStateKey issueNumber processorName)

/-- `IssueState.fromJSON({issue_number, processor_name, ...value})` followed by
the store forcing `state.processor_name = processorName`
(`stateManager.ts` lines 75–80).  The record spread lets a serialized
`issue_number` override the key-derived one; absent string fields behave like
`undefined`, which every predicate in the store treats like `""`. -/
def loadState (issueNumber : Nat) (processorName : String) (r : RawRecord) : IssueState :=
  { issue_number := r.issue_number.getD issueNumber
    status := r.status.getD ""
    session_id := r.session_id
    branch := r.branch.getD ""
    start_time := r.start_time.getD ""
    agent_index := r.agent_index
    repo_name := r.repo_name
    end_time := r.end_time
    last_output := r.last_output
    error := r.error
    processor_name := processorName }

/-- `StateManager.initialize` (`stateManager.ts` lines 65–88) applied to the
decoded contents of the state file: each entry's key is parsed (with the
record's own `processor_name` as fallback processor), `NaN` issue numbers are
skipped, and the loaded state is inserted under the canonical composite key. -/
def initializeStates (m : StateMap) (raw : List (String × RawRecord)) : StateMap :=
  raw.foldl
    (fun acc kv =>
      let inferred := kv.2.processor_name.getD "claude"
      match parseStateKey kv.1 inferred with
      | none => acc
      | some (n, p) => mapSet acc (makeStateKey n p) (loadState n p kv.2))
    m

/-- `ACTIVE_STATUSES` membership (`stateManager.ts` lines 5–10, 53–55). -/
def isActive (st : IssueState) : Bool :=
  st.status == "running" || st.status == "needs_input"

/-- `StateManager.getActiveStates`. -/
def getActiveStates (m : StateMap) : List IssueState :=
  (m.map (fun e => e.2)).filter isActive

/-- `StateManager.getActiveStatesByProcessor`. -/
def getActiveStatesByProcessor (m : StateMap) (processorName : String) : List IssueState :=
  (getActiveStates m).filter (fun st => st.processor_name == processorName)

/-- `StateManager.getActiveIssueNumbersByProcessor`. -/
def getActiveIssueNumbersByProcessor (m : StateMap) (processorName : String) : List Nat :=
  jsSetList ((getActiveStatesByProcessor m processorName).map (fun st => st.issue_number))

/-- Modelled from the spec: `activeIssueNumbers()` — the union across all
processors of the issue numbers of active states (spec §4.3).  The
`StateManager` method called by `ImploidOrchestrator.scheduleIssues` under
this name is not among the provided source files; its per-processor sibling
`getActiveIssueNumbersByProcessor` is, and this definition is the same
construction without the processor filter. -/
def getActiveIssueNumbers (m : StateMap) : List Nat :=
  jsSetList ((getActiveStates m).map (fun st => st.issue_number))

/-- The `usedAgents` set built by `StateManager.getAvailableAgentIndex`
(`stateManager.ts` lines 130–135): agent indices of active states of the
processor that are neither `undefined` nor `null`. -/
def usedAgentIndices (m : StateMap) (processorName : String) : List Nat :=
  (getActiveStatesByProcessor m processorName).filterMap
    (fun st => match st.agent_index with
      | some (some i) => some i
      | _ => none)

/-- `StateManager.getAvailableAgentIndex` (`stateManager.ts` lines 129–142):
return the first `i < maxConcurrent` not among the used agent indices. -/
def getAvailableAgentIndex (m : StateMap) (processorName : String)
    (maxConcurrent : Nat) : Option Nat :=
  (List.range maxConcurrent).find? (fun i => !((usedAgentIndices m processorName).contains i))

/-- `StateManager.saveStates` serialization: the full map, entry by entry, each
value through `IssueState.toJSON`. -/
def saveStatesJson (m : StateMap) : List (String × List (String × JVal)) :=
  m.map (fun e => (e.1, e.2.toJSON))

/-! ### Association-list lemmas for the `Map` embedding -/

/-- Replacing the entries keyed `k` makes `find?` for `k` return the
replacement, provided some entry matches. -/
theorem find?_replace_self (k : String) (v : IssueState) :
    ∀ m : StateMap, (∃ e ∈ m, e.1 = k) →
      (m.map (fun e => if e.1 == k then (k, v) else e)).find? (fun e => e.1 == k)
        = some (k, v) := by
  intro m
  induction m with
  | nil => rintro ⟨e, he, -⟩; cases he
  | cons a as ih =>
      rintro ⟨e, he, hek⟩
      simp only [List.map_cons]
      by_cases ha : a.1 = k
      · rw [if_pos (by simp [ha])]
        rw [List.find?_cons_of_pos _ (by simp)]
      · rw [if_neg (by simp [ha])]
        rw [List.find?_cons_of_neg _ (by simp [ha])]
        rcases List.mem_cons.mp he with rfl | he'
        · exact absurd hek ha
        · exact ih ⟨e, he', hek⟩

/-- Appending a fresh entry makes `find?` for its key return it, provided no
existing entry matches. -/
theorem find?_append_fresh (k : String) (v : IssueState) :
    ∀ m : StateMap, (∀ e ∈ m, e.1 ≠ k) →
      ((m ++ [(k, v)]).find? (fun e => e.1 == k)) = some (k, v) := by
  intro m
  induction m with
  | nil =>
      intro _
      simp only [List.nil_append]
      rw [List.find?_cons_of_pos _ (by simp)]
  | cons a as ih =>
      intro hall
      rw [List.cons_append,
        List.find?_cons_of_neg _ (by simp [hall a (List.mem_cons_self a as)])]
      exact ih (fun e he => hall e (List.mem_cons_of_mem a he))

/-- Looking up the key just set returns the value just set. -/
theorem lookupKey_mapSet_self (m : StateMap) (k : String) (v : IssueState) :
    lookupKey (mapSet m k v) k = some v := by
  unfold lookupKey mapSet
  by_cases h : m.any (fun e => e.1 == k)
  · rw [if_pos h]
    rw [find?_replace_self k v m
      (by rcases List.any_eq_true.mp h with ⟨e, he, hek⟩; exact ⟨e, he, beq_iff_eq.mp hek⟩)]
    rfl
  · rw [if_neg h]
    rw [find?_append_fresh k v m
      (fun e he hek => h (List.any_eq_true.mpr ⟨e, he, beq_iff_eq.mpr hek⟩))]
    rfl

/-- Replacing the entries keyed `k` does not change `find?` for a key `k' ≠ k`. -/
theorem find?_replace_other (k k' : String) (v : IssueState) (hne : k' ≠ k) :
    ∀ m : StateMap,
      (m.map (fun e => if e.1 == k then (k, v) else e)).find? (fun e => e.1 == k')
        = m.find? (fun e => e.1 == k') := by
  intro m
  induction m with
  | nil => rfl
  | cons a as ih =>
      simp only [List.map_cons]
      by_cases ha : a.1 = k
      · rw [if_pos (by simp [ha])]
        rw [List.find?_cons_of_neg _ (by simp; exact Ne.symm hne),
          List.find?_cons_of_neg _ (by simp [ha]; exact Ne.symm hne)]
        exact ih
      · rw [if_neg (by simp [ha])]
        by_cases ha' : a.1 = k'
        · rw [List.find?_cons_of_pos _ (by simp [ha']),
            List.find?_cons_of_pos _ (by simp [ha'])]
        · rw [List.find?_cons_of_neg _ (by simp [ha']),
            List.find?_cons_of_neg _ (by simp [ha'])]
          exact ih

/-- Appending an entry keyed `k` does not change `find?` for a key `k' ≠ k`. -/
theorem find?_append_other (k k' : String) (v : IssueState) (hne : k' ≠ k) :
    ∀ m : StateMap,
      ((m ++ [(k, v)]).find? (fun e => e.1 == k')) = m.find? (fun e => e.1 == k') := by
  intro m
  induction m with
  | nil =>
      simp only [List.nil_append]
      rw [List.find?_cons_of_neg _ (by simp; exact Ne.symm hne)]
  | cons a as ih =>
      by_cases ha' : a.1 = k'
      · rw [List.cons_append, List.find?_cons_of_pos _ (by simp [ha']),
          List.find?_cons_of_pos _ (by simp [ha'])]
      · rw [List.cons_append, List.find?_cons_of_neg _ (by simp [ha']),
          List.find?_cons_of_neg _ (by simp [ha'])]
        exact ih

/-- Setting one key leaves every other key's lookup unchanged. -/
theorem lookupKey_mapSet_other (m : StateMap) (k k' : String) (v : IssueState)
    (hne : k' ≠ k) :
    lookupKey (mapSet m k v) k' = lookupKey m k' := by
  unfold lookupKey mapSet
  by_cases h : m.any (fun e => e.1 == k)
  · rw [if_pos h, find?_replace_other k k' v hne m]
  · rw [if_neg h, find?_append_other k k' v hne m]

/-- Every entry of `mapSet m k v` is an old entry or the pair just set. -/
theorem mem_mapSet (m : StateMap) (k : String) (v : IssueState) (e : String × IssueState)
    (he : e ∈ mapSet m k v) : e ∈ m ∨ e = (k, v) := by
  unfold mapSet at he
  by_cases h : m.any (fun e => e.1 == k)
  · rw [if_pos h] at he
    rcases List.mem_map.mp he with ⟨e', he', heq⟩
    by_cases hk : e'.1 == k
    · rw [if_pos hk] at heq; exact Or.inr heq.symm
    · rw [if_neg hk] at heq; exact Or.inl (heq ▸ he')
  · rw [if_neg h] at he
    rcases List.mem_append.mp he with h' | h'
    · exact Or.inl h'
    · exact Or.inr (List.mem_singleton.mp h')

/-- Every entry of `mapDelete m k` is an entry of `m`. -/
theorem mem_mapDelete (m : StateMap) (k : String) (e : String × IssueState)
    (he : e ∈ mapDelete m k) : e ∈ m :=
  List.mem_of_mem_filter he

/-! ### `find?` over `range` -/

/-- A successful `find?` over `range' s n` returns the least satisfying index
in the window. -/
theorem find?_range'_eq_some (q : Nat → Bool) :
    ∀ (n s j : Nat), (List.range' s n).find? q = some j →
      q j = true ∧ s ≤ j ∧ j < s + n ∧ ∀ i, s ≤ i → i < j → q i = false := by
  intro n
  induction n with
  | zero => intro s j h; simp [List.range'] at h
  | succ n ih =>
      intro s j h
      rw [List.range'_succ s n 1] at h
      by_cases hs : q s
      · rw [List.find?_cons_of_pos _ hs] at h
        cases h
        exact ⟨hs, le_refl _, by omega, fun i h1 h2 => absurd h1 (by omega)⟩
      · rw [List.find?_cons_of_neg _ hs] at h
        obtain ⟨hq, hle, hlt, hmin⟩ := ih (s + 1) j h
        refine ⟨hq, by omega, by omega, ?_⟩
        intro i h1 h2
        rcases Nat.eq_or_lt_of_le h1 with rfl | h1'
        · simpa using hs
        · exact hmin i h1' h2

/-- A failed `find?` over `range' s n` means no index in the window satisfies
the predicate. -/
theorem find?_range'_eq_none (q : Nat → Bool) :
    ∀ (n s : Nat), (List.range' s n).find? q = none →
      ∀ i, s ≤ i → i < s + n → q i = false := by
  intro n
  induction n with
  | zero => intro s h i h1 h2; omega
  | succ n ih =>
      intro s h i h1 h2
      rw [List.range'_succ s n 1] at h
      by_cases hs : q s
      · rw [List.find?_cons_of_pos _ hs] at h; cases h
      · rw [List.find?_cons_of_neg _ hs] at h
        rcases Nat.eq_or_lt_of_le h1 with rfl | h1'
        · simpa using hs
        · exact ih (s + 1) h i h1' (by omega)

/-! ### Agent-slot availability (claim C3) -/

/-- Agent index `i` is used by some active state of processor `p`:
some stored state is active (`running`/`needs_input`), belongs to `p`, and
holds `i` as its agent index. -/
def AgentIndexUsed (m : StateMap) (p : String) (i : Nat) : Prop :=
  ∃ e ∈ m, isActive e.2 = true ∧ e.2.processor_name = p ∧ e.2.agent_index = some (some i)

instance (m : StateMap) (p : String) (i : Nat) : Decidable (AgentIndexUsed m p i) := by
  unfold AgentIndexUsed
  infer_instance

/-- The `usedAgents` set of the source agrees with the `AgentIndexUsed`
predicate. -/
theorem usedAgentIndices_iff (m : StateMap) (p : String) (i : Nat) :
    (usedAgentIndices m p).contains i = true ↔ AgentIndexUsed m p i := by
  unfold usedAgentIndices AgentIndexUsed getActiveStatesByProcessor getActiveStates
  rw [List.contains_iff_exists_mem_beq]
  constructor
  · rintro ⟨j, hj, hbeq⟩
    rcases List.mem_filterMap.mp hj with ⟨st, hst, hfn⟩
    rcases List.mem_filter.mp hst with ⟨hst', hproc⟩
    rcases List.mem_filter.mp hst' with ⟨hst'', hact⟩
    rcases List.mem_map.mp hst'' with ⟨e, he, rfl⟩
    refine ⟨e, he, hact, by simpa using hproc, ?_⟩
    rcases hidx : e.2.agent_index with - | oi
    · rw [hidx] at hfn; cases hfn
    · rcases oi with - | j'
      · rw [hidx] at hfn; cases hfn
      · rw [hidx] at hfn
        simp only [Option.some.injEq] at hfn
        rw [hfn, beq_iff_eq.mp hbeq]
  · rintro ⟨e, he, hact, hproc, hidx⟩
    refine ⟨i, List.mem_filterMap.mpr ⟨e.2, ?_, by rw [hidx]⟩, by simp⟩
    exact List.mem_filter.mpr
      ⟨List.mem_filter.mpr ⟨List.mem_map.mpr ⟨e, he, rfl⟩, hact⟩, by simp [hproc]⟩

/-- **C3.** `getAvailableAgentIndex(p, maxConcurrent)` returns the smallest
index in `[0, maxConcurrent)` not used by any active state (status `running`
or `needs_input`) of processor `p`, and returns `none` exactly when every
index in that range is occupied by an active state of `p`. -/
theorem getAvailableAgentIndex_spec (m : StateMap) (p : String) (maxConcurrent : Nat) :
    (∀ i, getAvailableAgentIndex m p maxConcurrent = some i →
        i < maxConcurrent ∧ ¬ AgentIndexUsed m p i ∧ ∀ j, j < i → AgentIndexUsed m p j) ∧
    (getAvailableAgentIndex m p maxConcurrent = none →
        ∀ i, i < maxConcurrent → AgentIndexUsed m p i) := by
  constructor
  · intro i h
    unfold getAvailableAgentIndex at h
    rw [List.range_eq_range' maxConcurrent] at h
    obtain ⟨hq, -, hlt, hmin⟩ := find?_range'_eq_some _ maxConcurrent 0 i h
    refine ⟨by omega, ?_, ?_⟩
    · intro hused
      rw [← usedAgentIndices_iff m p i] at hused
      rw [hused] at hq
      cases hq
    · intro j hj
      have hqj := hmin j (by omega) hj
      rw [← usedAgentIndices_iff m p j]
      by_cases hc : (usedAgentIndices m p).contains j
      · exact hc
      · rw [Bool.not_eq_true] at hc
        rw [hc] at hqj
        cases hqj
  · intro h i hi
    unfold getAvailableAgentIndex at h
    rw [List.range_eq_range' maxConcurrent] at h
    have hqi := find?_range'_eq_none _ maxConcurrent 0 h i (by omega) (by omega)
    rw [← usedAgentIndices_iff m p i]
    by_cases hc : (usedAgentIndices m p).contains i
    · exact hc
    · rw [Bool.not_eq_true] at hc
      rw [hc] at hqi
      cases hqi

/-! ### Store operations and the key/record invariant (claim C10) -/

/-- A mutation of the `StateManager` store: reading the state file
(`initialize`), `setState`, or `removeState`. -/
inductive StateOp : Type
  | load (raw : List (String × RawRecord))
  | set (issueNumber : Nat) (processorName : String) (st : IssueState)
  | remove (issueNumber : Nat) (processorName : String)

/-- Apply one store operation. -/
def applyOp (m : StateMap) : StateOp → StateMap
  | StateOp.load raw => initializeStates m raw
  | StateOp.set n p st => setState m n p st
  | StateOp.remove n p => removeState m n p

/-- Apply a sequence of store operations. -/
def applyOps (m : StateMap) (ops : List StateOp) : StateMap :=
  ops.foldl applyOp m

/-- Every entry's key is the composite key built from some issue number and
the entry's own `processor_name`: the processor component of the key equals
the stored `processor_name`. -/
def KeyConsistent (m : StateMap) : Prop :=
  ∀ e ∈ m, ∃ n, e.1 = makeStateKey n e.2.processor_name

/-- `setState` preserves key/record consistency. -/
theorem keyConsistent_setState (m : StateMap) (n : Nat) (p : String) (st : IssueState)
    (h : KeyConsistent m) : KeyConsistent (setState m n p st) := by
  intro e he
  rcases mem_mapSet _ _ _ _ he with he' | rfl
  · exact h e he'
  · exact ⟨n, rfl⟩

/-- `removeState` preserves key/record consistency. -/
theorem keyConsistent_removeState (m : StateMap) (n : Nat) (p : String)
    (h : KeyConsistent m) : KeyConsistent (removeState m n p) := by
  intro e he
  exact h e (mem_mapDelete _ _ _ he)

/-- `initialize` preserves key/record consistency: each decoded entry is
inserted under the canonical key of its parsed issue number and processor,
and its `processor_name` is forced to that processor. -/
theorem keyConsistent_initializeStates (raw : List (String × RawRecord)) :
    ∀ m : StateMap, KeyConsistent m → KeyConsistent (initializeStates m raw) := by
  induction raw with
  | nil => intro m h; exact h
  | cons kv raw ih =>
      intro m h
      unfold initializeStates
      rw [List.foldl_cons]
      show KeyConsistent (initializeStates _ raw)
      apply ih
      rcases hp : parseStateKey kv.1 (kv.2.processor_name.getD "claude") with - | np
      · simpa [hp] using h
      · simp only [hp]
        intro e he
        rcases mem_mapSet _ _ _ _ he with he' | rfl
        · exact h e he'
        · exact ⟨np.1, rfl⟩

/-- Any operation preserves key/record consistency. -/
theorem keyConsistent_applyOp (m : StateMap) (op : StateOp)
    (h : KeyConsistent m) : KeyConsistent (applyOp m op) := by
  cases op with
  | load raw => exact keyConsistent_initializeStates raw m h
  | set n p st => exact keyConsistent_setState m n p st h
  | remove n p => exact keyConsistent_removeState m n p h

/-- Any sequence of operations preserves key/record consistency. -/
theorem keyConsistent_applyOps (ops : List StateOp) :
    ∀ m : StateMap, KeyConsistent m → KeyConsistent (applyOps m ops) := by
  induction ops with
  | nil => intro m h; exact h
  | cons op ops ih =>
      intro m h
      unfold applyOps
      rw [List.foldl_cons]
      exact ih (applyOp m op) (keyConsistent_applyOp m op h)

/-- **C10.** After any sequence of `initialize`, `setState` and `removeState`
operations on a fresh store, every `IssueState` stored under a map key
`"<issue>:<processor>"` has its `processor_name` equal to the processor
component of that key: the key is `makeStateKey n processor_name` for some
issue number `n`.  Both `setState` and `initialize` force `processor_name`
to the key's processor before inserting. -/
theorem stateMap_key_processor_consistent (ops : List StateOp) :
    ∀ e ∈ applyOps [] ops, ∃ n, e.1 = makeStateKey n e.2.processor_name :=
  keyConsistent_applyOps ops [] (fun _ he => absurd he (List.not_mem_nil _))

/-- A concrete running codex state for issue 7. -/
def c10State : IssueState :=
  { issue_number := 7, status := "running", processor_name := "codex" }

/-- The same record tagged with a stale processor name, as a caller might pass
it to `setState`. -/
def c10Stale : IssueState :=
  { c10State with processor_name := "claude" }

/-- Witness for C10: a concrete two-operation history — set a codex state
whose record carried a stale processor name, then remove an absent entry —
whose single surviving entry satisfies the invariant. -/
theorem stateMap_key_processor_consistent_witness :
    ∃ n, ("7:codex", c10State).1 = makeStateKey n ("7:codex", c10State).2.processor_name :=
  stateMap_key_processor_consistent
    [StateOp.set 7 "codex" c10Stale, StateOp.remove 9 "claude"]
    ("7:codex", c10State)
    (by decide)

/-- A concrete state: issue 5 running on claude's agent slot 0. -/
def c3State : IssueState :=
  { issue_number := 5, status := "running", branch := "issue-5-claude-20260101000000",
    start_time := "2026-01-01T00:00:00.000Z", agent_index := some (some 0),
    processor_name := "claude" }

/-- A concrete store holding only `c3State`. -/
def c3Store : StateMap := [("5:claude", c3State)]

/-! ### State-file persistence (claims C4 and C5) -/

/-- A simplified model of Node's `path.dirname`: drop the last `/`-separated
component (`"."` for a bare file name, `"/"` for a root-level file).
Trailing-slash edge cases of the real function are not modelled; no claim
depends on them. -/
def dirname (p : String) : String :=
  match (splitChar '/' p.data).dropLast with
  | [] => "."
  | [[]] => "/"
  | segs => String.mk (List.intercalate ['/'] segs)

/-- A filesystem operation observable during `saveStates`. -/
inductive FsOp : Type
  | mkdirRecursive (path : String)
  | writeFileOp (path : String) (content : List (String × List (String × JVal)))
  | renameOp (src dst : String)
  deriving DecidableEq, Repr

/-- Whether a filesystem operation is a rename. -/
def isRenameOp : FsOp → Bool
  | FsOp.renameOp _ _ => true
  | _ => false

/-- The filesystem effect of `StateManager.saveStates` (`stateManager.ts`
lines 103–111): `mkdir(dirname(stateFile), {recursive: true})` followed by a
single `writeFile(stateFile, JSON.stringify(json))` directly to the state
file. -/
def saveStatesTrace (stateFile : String) (m : StateMap) : List FsOp :=
  [FsOp.mkdirRecursive (dirname stateFile),
   FsOp.writeFileOp stateFile (saveStatesJson m)]

/-- The default state-file path used below as a concrete input. -/
def c4StateFile : String := "/home/user/.issue-orchestrator/processing-state.json"

/-- **C4 (counterexample).** The claim that `saveStates` writes the snapshot
to a temporary file and renames it into place is false: on a concrete store
and state file, the trace contains no write to any path other than the state
file followed by a rename onto it — it contains no rename at all. -/
theorem saveStates_atomic_claim_counterexample :
    ¬ ∃ tmp content, tmp ≠ c4StateFile ∧
        FsOp.writeFileOp tmp content ∈ saveStatesTrace c4StateFile c3Store ∧
        FsOp.renameOp tmp c4StateFile ∈ saveStatesTrace c4StateFile c3Store := by
  rintro ⟨tmp, content, -, -, hr⟩
  simp [saveStatesTrace] at hr

/-- **C4 (amended).** `saveStates` creates the state file's parent directory
recursively and then writes the full serialized map directly to the state
file in one write: the trace is exactly that mkdir followed by that write,
every stored entry appears in the written snapshot, and no rename (hence no
temporary file) is involved, so the replacement is not atomic. -/
theorem saveStates_write_trace_spec (sf : String) (m : StateMap) :
    saveStatesTrace sf m
        = [FsOp.mkdirRecursive (dirname sf), FsOp.writeFileOp sf (saveStatesJson m)] ∧
    (∀ op ∈ saveStatesTrace sf m, isRenameOp op = false) ∧
    (∀ k st, (k, st) ∈ m → (k, IssueState.toJSON st) ∈ saveStatesJson m) := by
  refine ⟨rfl, ?_, ?_⟩
  · intro op hop
    rcases List.mem_cons.mp hop with rfl | hop'
    · rfl
    · rcases List.mem_cons.mp hop' with rfl | hop''
      · rfl
      · cases hop''
  · intro k st h
    exact List.mem_map.mpr ⟨(k, st), h, rfl⟩

/-- Witness for C4 (amended): on the concrete store `c3Store`, the first
stored entry indeed appears in the serialized snapshot. -/
theorem saveStates_write_trace_spec_witness :
    ("5:claude", IssueState.toJSON c3State) ∈ saveStatesJson c3Store := by
  refine (saveStates_write_trace_spec c4StateFile c3Store).2.2 "5:claude" c3State ?_
  decide

/-! #### Lookup lemmas for the serialized record -/

/-- `lookup` distributes over append through `orElse`. -/
theorem lookup_append (a : String) :
    ∀ (l₁ l₂ : List (String × JVal)),
      (l₁ ++ l₂).lookup a = ((l₁.lookup a).orElse (fun _ => l₂.lookup a)) := by
  intro l₁ l₂
  induction l₁ with
  | nil => simp [List.lookup, Option.orElse]
  | cons e l₁ ih =>
      rcases e with ⟨k, b⟩
      rw [List.cons_append]
      show List.lookup a ((k, b) :: (l₁ ++ l₂)) = _
      cases hk : a == k with
      | true => simp [List.lookup, hk, Option.orElse]
      | false => simp [List.lookup, hk, Option.orElse, ih]

/-- The serialized value of a truthiness-guarded optional string field. -/
def optStrJson (v : Option (Option String)) : Option JVal :=
  match v with
  | some (some s) => if s = "" then none else some (JVal.jstr s)
  | _ => none

/-- The serialized value of `agent_index`. -/
def agentIndexJson (v : Option (Option Nat)) : Option JVal :=
  match v with
  | none => none
  | some none => some JVal.jnull
  | some (some i) => some (JVal.jnum i)

/-- Looking up an optional string segment under its own key. -/
theorem lookup_optStrEntry_self (k : String) (v : Option (Option String)) :
    (optStrEntry k v).lookup k = optStrJson v := by
  rcases v with - | ov
  · rfl
  · rcases ov with - | s
    · rfl
    · by_cases hs : s = ""
      · simp [optStrEntry, optStrJson, hs]
      · simp [optStrEntry, optStrJson, hs, List.lookup]

/-- Looking up an optional string segment under a different key. -/
theorem lookup_optStrEntry_other (k k' : String) (v : Option (Option String))
    (h : k' ≠ k) : (optStrEntry k v).lookup k' = none := by
  rcases v with - | ov
  · rfl
  · rcases ov with - | s
    · rfl
    · by_cases hs : s = ""
      · simp [optStrEntry, hs]
      · have hk : (k' == k) = false := by simp [h]
        simp [optStrEntry, hs, List.lookup, hk]

/-- Looking up the `agent_index` segment under its own key. -/
theorem lookup_agentIndexEntry_self (v : Option (Option Nat)) :
    (agentIndexEntry v).lookup "agent_index" = agentIndexJson v := by
  rcases v with - | ov
  · rfl
  · rcases ov with - | i <;> simp [agentIndexEntry, agentIndexJson, List.lookup]

/-- Looking up the `agent_index` segment under a different key. -/
theorem lookup_agentIndexEntry_other (k' : String) (v : Option (Option Nat))
    (h : k' ≠ "agent_index") : (agentIndexEntry v).lookup k' = none := by
  have hk : (k' == "agent_index") = false := by simp [h]
  rcases v with - | ov
  · rfl
  · rcases ov with - | i <;> simp [agentIndexEntry, List.lookup, hk]

/-- `orElse` with a constantly-`none` fallback is the identity. -/
theorem orElse_fun_none (o : Option JVal) : (o.orElse fun _ => none) = o := by
  cases o <;> rfl

/-- `orElse` on `none` runs the fallback. -/
theorem none_orElse_fun (f : Unit → Option JVal) : (Option.orElse none f) = f () := rfl

/-- The serialized record always carries `issue_number`. -/
theorem toJSON_lookup_issue_number (st : IssueState) :
    (IssueState.toJSON st).lookup "issue_number" = some (JVal.jnum st.issue_number) := by
  have hb : (baseEntries st).lookup "issue_number" = some (JVal.jnum st.issue_number) := rfl
  simp [IssueState.toJSON, lookup_append, hb, Option.orElse]

/-- The serialized record always carries `status`. -/
theorem toJSON_lookup_status (st : IssueState) :
    (IssueState.toJSON st).lookup "status" = some (JVal.jstr st.status) := by
  have hb : (baseEntries st).lookup "status" = some (JVal.jstr st.status) := rfl
  simp [IssueState.toJSON, lookup_append, hb, Option.orElse]

/-- The serialized record always carries `branch`. -/
theorem toJSON_lookup_branch (st : IssueState) :
    (IssueState.toJSON st).lookup "branch" = some (JVal.jstr st.branch) := by
  have hb : (baseEntries st).lookup "branch" = some (JVal.jstr st.branch) := rfl
  simp [IssueState.toJSON, lookup_append, hb, Option.orElse]

/-- The serialized record always carries `start_time`. -/
theorem toJSON_lookup_start_time (st : IssueState) :
    (IssueState.toJSON st).lookup "start_time" = some (JVal.jstr st.start_time) := by
  have hb : (baseEntries st).lookup "start_time" = some (JVal.jstr st.start_time) := rfl
  simp [IssueState.toJSON, lookup_append, hb, Option.orElse]

/-- The serialized record never carries `processor_name`. -/
theorem toJSON_lookup_processor_name (st : IssueState) :
    (IssueState.toJSON st).lookup "processor_name" = none := by
  have hb : (baseEntries st).lookup "processor_name" = none := rfl
  simp [IssueState.toJSON, lookup_append, hb, lookup_optStrEntry_other,
    lookup_agentIndexEntry_other, none_orElse_fun, orElse_fun_none]

/-- The serialized `session_id` follows the truthiness guard. -/
theorem toJSON_lookup_session_id (st : IssueState) :
    (IssueState.toJSON st).lookup "session_id" = optStrJson st.session_id := by
  have hb : (baseEntries st).lookup "session_id" = none := rfl
  simp [IssueState.toJSON, lookup_append, hb, lookup_optStrEntry_self,
    lookup_optStrEntry_other, lookup_agentIndexEntry_other, none_orElse_fun, orElse_fun_none]

/-- The serialized `agent_index` is omitted only when undefined; a null agent
index is written as JSON `null`. -/
theorem toJSON_lookup_agent_index (st : IssueState) :
    (IssueState.toJSON st).lookup "agent_index" = agentIndexJson st.agent_index := by
  have hb : (baseEntries st).lookup "agent_index" = none := rfl
  simp [IssueState.toJSON, lookup_append, hb, lookup_agentIndexEntry_self,
    lookup_optStrEntry_other, none_orElse_fun, orElse_fun_none]

/-- The serialized `repo_name` follows the truthiness guard. -/
theorem toJSON_lookup_repo_name (st : IssueState) :
    (IssueState.toJSON st).lookup "repo_name" = optStrJson st.repo_name := by
  have hb : (baseEntries st).lookup "repo_name" = none := rfl
  simp [IssueState.toJSON, lookup_append, hb, lookup_optStrEntry_self,
    lookup_optStrEntry_other, lookup_agentIndexEntry_other, none_orElse_fun, orElse_fun_none]

/-- The serialized `end_time` follows the truthiness guard. -/
theorem toJSON_lookup_end_time (st : IssueState) :
    (IssueState.toJSON st).lookup "end_time" = optStrJson st.end_time := by
  have hb : (baseEntries st).lookup "end_time" = none := rfl
  simp [IssueState.toJSON, lookup_append, hb, lookup_optStrEntry_self,
    lookup_optStrEntry_other, lookup_agentIndexEntry_other, none_orElse_fun, orElse_fun_none]

/-- The serialized `last_output` follows the truthiness guard. -/
theorem toJSON_lookup_last_output (st : IssueState) :
    (IssueState.toJSON st).lookup "last_output" = optStrJson st.last_output := by
  have hb : (baseEntries st).lookup "last_output" = none := rfl
  simp [IssueState.toJSON, lookup_append, hb, lookup_optStrEntry_self,
    lookup_optStrEntry_other, lookup_agentIndexEntry_other, none_orElse_fun, orElse_fun_none]

/-- The serialized `error` follows the truthiness guard. -/
theorem toJSON_lookup_error (st : IssueState) :
    (IssueState.toJSON st).lookup "error" = optStrJson st.error := by
  have hb : (baseEntries st).lookup "error" = none := rfl
  simp [IssueState.toJSON, lookup_append, hb, lookup_optStrEntry_self,
    lookup_optStrEntry_other, lookup_agentIndexEntry_other, none_orElse_fun, orElse_fun_none]

/-- A concrete state whose `agent_index` is JS `null` and whose optional
string fields are `null` or empty. -/
def c5State : IssueState :=
  { issue_number := 7, status := "needs_input", branch := "issue-7-claude-20260101000000",
    start_time := "2026-01-01T00:00:00.000Z", session_id := some none,
    agent_index := some none, repo_name := some (some ""), processor_name := "claude" }

/-- **C5 (counterexample).** The claim that the serialized values are the
`IssueState` fields minus `issue_number` and `processor_name` with null or
empty optional fields omitted is false: the serialized record of `c5State`
carries `issue_number`, and carries a JSON `null` for its `null`
`agent_index`. -/
theorem stateFile_codec_claim_counterexample :
    ("issue_number", JVal.jnum 7) ∈ IssueState.toJSON c5State ∧
    ("agent_index", JVal.jnull) ∈ IssueState.toJSON c5State := by
  decide

/-- **C5 (amended).** The persisted state file is a JSON object whose keys
are `"<issue>:<processor>"` and whose values are the `IssueState` fields
minus `processor_name` only: `issue_number` is also written.  The null-or-empty
optional string fields (`session_id`, `repo_name`, `end_time`, `last_output`,
`error`) are omitted on write; `agent_index` is omitted only when undefined
and a null agent index is serialized as JSON `null`.  Absent or extra fields
are tolerated on read. -/
theorem stateFile_codec_spec :
    (∀ st : IssueState,
      (IssueState.toJSON st).lookup "issue_number" = some (JVal.jnum st.issue_number) ∧
      (IssueState.toJSON st).lookup "processor_name" = none ∧
      (IssueState.toJSON st).lookup "status" = some (JVal.jstr st.status) ∧
      (IssueState.toJSON st).lookup "branch" = some (JVal.jstr st.branch) ∧
      (IssueState.toJSON st).lookup "start_time" = some (JVal.jstr st.start_time) ∧
      (IssueState.toJSON st).lookup "session_id" = optStrJson st.session_id ∧
      (IssueState.toJSON st).lookup "agent_index" = agentIndexJson st.agent_index ∧
      (IssueState.toJSON st).lookup "repo_name" = optStrJson st.repo_name ∧
      (IssueState.toJSON st).lookup "end_time" = optStrJson st.end_time ∧
      (IssueState.toJSON st).lookup "last_output" = optStrJson st.last_output ∧
      (IssueState.toJSON st).lookup "error" = optStrJson st.error) ∧
    (∀ ops : List StateOp, ∀ e ∈ saveStatesJson (applyOps [] ops),
      ∃ n p, e.1 = makeStateKey n p) ∧
    (∀ r : RawRecord,
      getState (initializeStates [] [("7:claude", r)]) 7 "claude"
        = some (loadState 7 "claude" r)) := by
  refine ⟨?_, ?_, ?_⟩
  · intro st
    exact ⟨toJSON_lookup_issue_number st, toJSON_lookup_processor_name st,
      toJSON_lookup_status st, toJSON_lookup_branch st, toJSON_lookup_start_time st,
      toJSON_lookup_session_id st, toJSON_lookup_agent_index st,
      toJSON_lookup_repo_name st, toJSON_lookup_end_time st,
      toJSON_lookup_last_output st, toJSON_lookup_error st⟩
  · intro ops e he
    rcases List.mem_map.mp he with ⟨e', he', rfl⟩
    obtain ⟨n, hn⟩ :=
      keyConsistent_applyOps ops [] (fun _ hx => absurd hx (List.not_mem_nil _)) e' he'
    exact ⟨n, e'.2.processor_name, hn⟩
  · intro r
    have hp : parseStateKey "7:claude" (r.processor_name.getD "claude")
        = some (7, "claude") := rfl
    unfold initializeStates
    rw [List.foldl_cons, List.foldl_nil]
    show getState (match parseStateKey "7:claude" (r.processor_name.getD "claude") with
      | none => ([] : StateMap)
      | some (n, p) => mapSet [] (makeStateKey n p) (loadState n p r)) 7 "claude" = _
    rw [hp]
    exact lookupKey_mapSet_self [] (makeStateKey 7 "claude") (loadState 7 "claude" r)

/-- Witness for C5 (amended): the snapshot of a store obtained by one
`setState` has its single entry keyed `"5:claude"`, which is a composite
key. -/
theorem stateFile_codec_spec_witness :
    ∃ n p, ("5:claude", IssueState.toJSON c3State).1 = makeStateKey n p := by
  refine stateFile_codec_spec.2.1 [StateOp.set 5 "claude" c3State]
    ("5:claude", IssueState.toJSON c3State) ?_
  decide

/-- Witness for C3: on `c3Store` with `maxConcurrent = 2` the next free claude
slot is `1`, which is indeed below the cap and unused. -/
theorem getAvailableAgentIndex_spec_witness :
    1 < 2 ∧ ¬ AgentIndexUsed c3Store "claude" 1 :=
  let h := (getAvailableAgentIndex_spec c3Store "claude" 2).1 1 (by decide)
  ⟨h.1, h.2.1⟩

/-! ### GitHub label updates (claim C6) -/

/-- `GitHubClient.updateIssueLabels` (`githubClient.ts` lines 57–91) as a
function of the fetched label set: build a JS `Set` from the issue's current
labels, delete every `remove` label, add every `add` label, and the resulting
list is the body of the `PUT` (`Array.from(currentLabels)`). -/
def updateIssueLabels (currentLabels : List String) (add remove : List String) : List String :=
  let current := jsSetList currentLabels
  let afterRemove := remove.foldl (fun acc lbl => acc.filter (fun y => !(y == lbl))) current
  add.foldl (fun acc a => if a ∈ acc then acc else acc ++ [a]) afterRemove

/-- Membership after the `Set.delete` fold: survived the removals. -/
theorem mem_removeFold (remove : List String) :
    ∀ (s : List String) (x : String),
      (x ∈ remove.foldl (fun acc lbl => acc.filter (fun y => !(y == lbl))) s) ↔
        (x ∈ s ∧ x ∉ remove) := by
  induction remove with
  | nil => intro s x; simp
  | cons r rs ih =>
      intro s x
      rw [List.foldl_cons, ih]
      simp only [List.mem_filter, List.mem_cons]
      constructor
      · rintro ⟨⟨hs, hr⟩, hrs⟩
        refine ⟨hs, ?_⟩
        rintro (rfl | h)
        · simp at hr
        · exact hrs h
      · rintro ⟨hs, hmem⟩
        exact ⟨⟨hs, by simp; intro heq; exact hmem (Or.inl heq)⟩,
          fun h => hmem (Or.inr h)⟩

/-- Helper: membership in `updateIssueLabels` is set difference then union. -/
theorem mem_updateIssueLabels (current add remove : List String) (x : String) :
    x ∈ updateIssueLabels current add remove ↔
      ((x ∈ current ∧ x ∉ remove) ∨ x ∈ add) := by
  unfold updateIssueLabels
  rw [mem_jsSetList_foldl, mem_removeFold, mem_jsSetList]

/-- **C6.** `updateLabels` computes the final label set by removing the
`remove` labels from the fetched current set and then adding the `add` labels
(set difference then union), and PUTs that final set; consequently applying
the same update twice yields the same final set as applying it once. -/
theorem updateIssueLabels_spec (current add remove : List String) (x : String) :
    (x ∈ updateIssueLabels current add remove ↔
        ((x ∈ current ∧ x ∉ remove) ∨ x ∈ add)) ∧
    (x ∈ updateIssueLabels (updateIssueLabels current add remove) add remove ↔
        x ∈ updateIssueLabels current add remove) := by
  constructor
  · exact mem_updateIssueLabels current add remove x
  · rw [mem_updateIssueLabels, mem_updateIssueLabels]
    tauto

/-! ### Branch naming (claim C7) -/

/-- `value.replace(/\D/g, "")`: the digit characters of a string, in order. -/
def digitsOf (s : String) : List Char :=
  s.data.filter (fun c => c.isDigit)

/-- The `sanitize` closure of `createIssueBranchName` (`branch.ts` lines
9–16): take the first 14 digits of the raw timestamp, padding from the
fallback timestamp's digits when there are fewer than 14. -/
def sanitizeTimestamp (value fallback : String) : List Char :=
  let digits := digitsOf value
  if 14 ≤ digits.length then digits.take 14
  else (digits ++ digitsOf fallback).take 14

/-- `createIssueBranchName` (`branch.ts`).  A `Date` argument is passed here
as its ISO string (`timestamp.toISOString()`); `fallbackTimestamp` is
`new Date().toISOString()`, which always carries at least 14 digits. -/
def createIssueBranchName (issueNumber : Nat) (processorName : String)
    (rawTimestamp fallbackTimestamp : String) : String :=
  "issue-" ++ toString issueNumber ++ "-" ++ processorName ++ "-"
    ++ String.mk (sanitizeTimestamp rawTimestamp fallbackTimestamp)

/-- **C7.** For every issue number, processor name and timestamp argument
(a `Date`'s ISO string or an arbitrary string, including ones with fewer
than 14 digits), the produced branch name is
`issue-<n>-<p>-<ts>` where `<ts>` is exactly 14 digit characters — provided
the runtime fallback `new Date().toISOString()` carries at least 14 digits,
which every ISO-8601 instant does. -/
theorem createIssueBranchName_spec (issueNumber : Nat) (processorName : String)
    (rawTimestamp fallbackTimestamp : String)
    (h : 14 ≤ (digitsOf fallbackTimestamp).length) :
    ∃ ts : List Char,
      createIssueBranchName issueNumber processorName rawTimestamp fallbackTimestamp
          = "issue-" ++ toString issueNumber ++ "-" ++ processorName ++ "-" ++ String.mk ts
        ∧ ts.length = 14 ∧ ∀ c ∈ ts, c.isDigit = true := by
  refine ⟨sanitizeTimestamp rawTimestamp fallbackTimestamp, rfl, ?_, ?_⟩
  · unfold sanitizeTimestamp
    by_cases h14 : 14 ≤ (digitsOf rawTimestamp).length
    · rw [if_pos h14, List.length_take]
      omega
    · rw [if_neg h14, List.length_take, List.length_append]
      omega
  · intro c hc
    unfold sanitizeTimestamp at hc
    by_cases h14 : 14 ≤ (digitsOf rawTimestamp).length
    · rw [if_pos h14] at hc
      have := List.take_subset 14 _ hc
      exact (List.mem_filter.mp this).2
    · rw [if_neg h14] at hc
      have := List.take_subset 14 _ hc
      rcases List.mem_append.mp this with h' | h'
      · exact (List.mem_filter.mp h').2
      · exact (List.mem_filter.mp h').2

/-- Witness for C7: a timestamp argument with no digits at all still yields a
14-digit timestamp component, drawn from the fallback instant. -/
theorem createIssueBranchName_spec_witness :
    14 ≤ (digitsOf "2026-01-02T03:04:05.678Z").length ∧
    ∃ ts : List Char,
      createIssueBranchName 3 "claude" "not-a-timestamp" "2026-01-02T03:04:05.678Z"
          = "issue-" ++ toString 3 ++ "-" ++ "claude" ++ "-" ++ String.mk ts
        ∧ ts.length = 14 ∧ ∀ c ∈ ts, c.isDigit = true :=
  ⟨by decide,
   createIssueBranchName_spec 3 "claude" "not-a-timestamp" "2026-01-02T03:04:05.678Z"
     (by decide)⟩

/-! ### Prompt substitution (claim C8)

`substituteVariables` (`prompt.ts`: `template.replace(/\$\{issueNumber\}/g,
String(issueNumber))`) performs a left-to-right, non-overlapping global
replacement of the literal token.  It is embedded as a scan with a fuel
argument instantiated to the template length so that it stays structurally
recursive and kernel-evaluable. -/

/-- One pass of JavaScript's global `replace` with a literal pattern: at each
position, if the token is a prefix, emit the replacement and continue after
the token; otherwise keep the character.  `fuel` bounds the recursion and is
never exhausted when `fuel ≥ length`. -/
def replaceTokAux (tok repl : List Char) : Nat → List Char → List Char
  | fuel + 1, c :: cs =>
      if tok.isPrefixOf (c :: cs) then
        repl ++ replaceTokAux tok repl fuel (List.drop tok.length (c :: cs))
      else c :: replaceTokAux tok repl fuel cs
  | _ + 1, [] => []
  | 0, l => l

/-- The same scan collecting, instead, the maximal token-free segments
between consecutive matches. -/
def splitTokAux (tok : List Char) : Nat → List Char → List (List Char)
  | fuel + 1, c :: cs =>
      if tok.isPrefixOf (c :: cs) then
        [] :: splitTokAux tok fuel (List.drop tok.length (c :: cs))
      else
        match splitTokAux tok fuel cs with
        | [] => [[c]]
        | s :: ss => (c :: s) :: ss
  | _ + 1, [] => [[]]
  | 0, l => [l]

/-- Join segments, interposing a separator. -/
def joinWith (sep : List Char) : List (List Char) → List Char
  | [] => []
  | [s] => s
  | s :: ss => s ++ sep ++ joinWith sep ss

/-- The literal token of the prompt templates. -/
def issueNumberTok : String := "${issueNumber}"

/-- `substituteVariables(template, issueNumber)`
(`prompt.ts` line 233 and line 64): replace every occurrence of the literal
token with the decimal form of the number. -/
def substituteVariables (template : String) (issueNumber : Nat) : String :=
  String.mk
    (replaceTokAux issueNumberTok.data (toString issueNumber).data
      template.data.length template.data)

/-- The decomposition of a template into its token-free segments. -/
def splitOnIssueNumberTok (template : String) : List (List Char) :=
  splitTokAux issueNumberTok.data template.data.length template.data

/-- `splitTokAux` always returns at least one segment. -/
theorem splitTokAux_ne_nil (tok : List Char) :
    ∀ (fuel : Nat) (l : List Char), splitTokAux tok fuel l ≠ [] := by
  intro fuel l
  match fuel, l with
  | 0, l => simp [splitTokAux]
  | fuel + 1, [] => simp [splitTokAux]
  | fuel + 1, c :: cs =>
      unfold splitTokAux
      by_cases hp : tok.isPrefixOf (c :: cs)
      · simp [hp]
      · simp only [if_neg hp]
        rcases hs : splitTokAux tok fuel cs with - | ⟨s, ss⟩ <;> simp

/-- `joinWith` over a cons whose head gains a character. -/
theorem joinWith_cons_char (sep : List Char) (c : Char) (s : List Char)
    (ss : List (List Char)) :
    joinWith sep ((c :: s) :: ss) = c :: joinWith sep (s :: ss) := by
  cases ss with
  | nil => rfl
  | cons s' ss' => simp [joinWith]

/-- `joinWith` over a leading empty segment with a nonempty tail. -/
theorem joinWith_nil_cons (sep : List Char) (s : List Char) (ss : List (List Char)) :
    joinWith sep ([] :: s :: ss) = sep ++ joinWith sep (s :: ss) := by
  simp [joinWith]

/-- The replacement scan equals splitting on the token and joining with the
replacement text. -/
theorem replaceTokAux_eq_joinWith (tok repl : List Char) (htok : tok ≠ []) :
    ∀ (fuel : Nat) (l : List Char), l.length ≤ fuel →
      replaceTokAux tok repl fuel l = joinWith repl (splitTokAux tok fuel l) := by
  intro fuel
  induction fuel with
  | zero =>
      intro l hl
      have : l = [] := List.eq_nil_of_length_eq_zero (Nat.le_zero.mp hl)
      subst this
      rfl
  | succ fuel ih =>
      intro l hl
      match l with
      | [] => rfl
      | c :: cs =>
          unfold replaceTokAux splitTokAux
          by_cases hp : tok.isPrefixOf (c :: cs)
          · rw [if_pos hp, if_pos hp]
            have hlen : (List.drop tok.length (c :: cs)).length ≤ fuel := by
              rw [List.length_drop]
              have : 1 ≤ tok.length := by
                cases tok with
                | nil => exact absurd rfl htok
                | cons _ _ => simp
              simp only [List.length_cons] at hl ⊢
              omega
            rw [ih _ hlen]
            rcases hs : splitTokAux tok fuel (List.drop tok.length (c :: cs)) with - | ⟨s, ss⟩
            · exact absurd hs (splitTokAux_ne_nil tok fuel _)
            · rw [joinWith_nil_cons]
          · rw [if_neg hp, if_neg hp]
            have hlen : cs.length ≤ fuel := by
              simp only [List.length_cons] at hl
              omega
            rw [ih cs hlen]
            rcases hs : splitTokAux tok fuel cs with - | ⟨s, ss⟩
            · exact absurd hs (splitTokAux_ne_nil tok fuel cs)
            · rw [joinWith_cons_char]

/-- Re-joining the segments with the token itself reconstructs the input:
no character outside the matched tokens is altered or dropped. -/
theorem joinWith_splitTokAux (tok : List Char) (htok : tok ≠ []) :
    ∀ (fuel : Nat) (l : List Char), l.length ≤ fuel →
      joinWith tok (splitTokAux tok fuel l) = l := by
  intro fuel
  induction fuel with
  | zero =>
      intro l hl
      have : l = [] := List.eq_nil_of_length_eq_zero (Nat.le_zero.mp hl)
      subst this
      rfl
  | succ fuel ih =>
      intro l hl
      match l with
      | [] => rfl
      | c :: cs =>
          unfold splitTokAux
          by_cases hp : tok.isPrefixOf (c :: cs)
          · rw [if_pos hp]
            have hpre : tok <+: (c :: cs) := List.isPrefixOf_iff_prefix.mp hp
            have hlen : (List.drop tok.length (c :: cs)).length ≤ fuel := by
              rw [List.length_drop]
              have : 1 ≤ tok.length := by
                cases tok with
                | nil => exact absurd rfl htok
                | cons _ _ => simp
              simp only [List.length_cons] at hl ⊢
              omega
            rcases hs : splitTokAux tok fuel (List.drop tok.length (c :: cs)) with - | ⟨s, ss⟩
            · exact absurd hs (splitTokAux_ne_nil tok fuel _)
            · rw [joinWith_nil_cons, ← hs, ih _ hlen]
              conv_rhs => rw [← List.take_append_drop tok.length (c :: cs)]
              rw [← List.prefix_iff_eq_take.mp hpre]
          · rw [if_neg hp]
            have hlen : cs.length ≤ fuel := by
              simp only [List.length_cons] at hl
              omega
            rcases hs : splitTokAux tok fuel cs with - | ⟨s, ss⟩
            · exact absurd hs (splitTokAux_ne_nil tok fuel cs)
            · rw [joinWith_cons_char, ← hs, ih cs hlen]

/-- The head segment produced by the scan is a prefix of the input. -/
theorem splitTokAux_head_prefix (tok : List Char) :
    ∀ (fuel : Nat) (l s : List Char) (ss : List (List Char)),
      splitTokAux tok fuel l = s :: ss → s <+: l := by
  intro fuel
  induction fuel with
  | zero =>
      intro l s ss h
      simp only [splitTokAux] at h
      cases h
      exact List.prefix_refl l
  | succ fuel ih =>
      intro l s ss h
      match l with
      | [] =>
          simp only [splitTokAux] at h
          cases h
          exact List.nil_prefix
      | c :: cs =>
          unfold splitTokAux at h
          by_cases hp : tok.isPrefixOf (c :: cs)
          · rw [if_pos hp] at h
            cases h
            exact List.nil_prefix
          · rw [if_neg hp] at h
            rcases hs : splitTokAux tok fuel cs with - | ⟨s', ss'⟩
            · rw [hs] at h
              cases h
              simp
            · rw [hs] at h
              injection h with h1 h2
              subst h1
              exact List.cons_prefix_cons.mpr ⟨rfl, ih cs s' ss' hs⟩

/-- No segment produced by the scan contains the token. -/
theorem splitTokAux_no_tok (tok : List Char) (htok : tok ≠ []) :
    ∀ (fuel : Nat) (l : List Char), l.length ≤ fuel →
      ∀ s ∈ splitTokAux tok fuel l, ¬ tok <:+: s := by
  intro fuel
  induction fuel with
  | zero =>
      intro l hl s hs hin
      have : l = [] := List.eq_nil_of_length_eq_zero (Nat.le_zero.mp hl)
      subst this
      simp only [splitTokAux, List.mem_singleton] at hs
      subst hs
      exact htok (List.eq_nil_of_infix_nil hin)
  | succ fuel ih =>
      intro l hl s hs hin
      match l with
      | [] =>
          simp only [splitTokAux, List.mem_singleton] at hs
          subst hs
          exact htok (List.eq_nil_of_infix_nil hin)
      | c :: cs =>
          unfold splitTokAux at hs
          by_cases hp : tok.isPrefixOf (c :: cs)
          · rw [if_pos hp] at hs
            have hlen : (List.drop tok.length (c :: cs)).length ≤ fuel := by
              rw [List.length_drop]
              have : 1 ≤ tok.length := by
                cases tok with
                | nil => exact absurd rfl htok
                | cons _ _ => simp
              simp only [List.length_cons] at hl ⊢
              omega
            rcases List.mem_cons.mp hs with rfl | hs'
            · exact htok (List.eq_nil_of_infix_nil hin)
            · exact ih _ hlen s hs' hin
          · rw [if_neg hp] at hs
            have hlen : cs.length ≤ fuel := by
              simp only [List.length_cons] at hl
              omega
            rcases hsp : splitTokAux tok fuel cs with - | ⟨s', ss'⟩
            · exact absurd hsp (splitTokAux_ne_nil tok fuel cs)
            · rw [hsp] at hs
              rcases List.mem_cons.mp hs with rfl | hs'
              · -- the head segment `c :: s'` would contain the token
                rcases hin with ⟨l₁, l₂, heq⟩
                match l₁, heq with
                | [], heq =>
                    -- the token would be a prefix of `c :: cs`
                    apply hp
                    apply List.isPrefixOf_iff_prefix.mpr
                    have h1 : tok <+: c :: s' := ⟨l₂, heq⟩
                    have h2 : c :: s' <+: c :: cs :=
                      List.cons_prefix_cons.mpr ⟨rfl, splitTokAux_head_prefix tok fuel cs s' ss' hsp⟩
                    exact h1.trans h2
                | x :: xs, heq =>
                    -- the token would sit inside the head segment of `cs`
                    have hx : s' = xs ++ tok ++ l₂ := by
                      have := heq
                      simp only [List.cons_append, List.cons.injEq] at this
                      exact this.2.symm
                    exact ih cs hlen s' (hsp ▸ List.mem_cons_self s' ss')
                      ⟨xs, l₂, by rw [hx]⟩
              · exact ih cs hlen s (hsp ▸ List.mem_cons_of_mem s' hs') hin

/-- **C8.** Prompt building replaces every literal occurrence of the token
`${issueNumber}` with the decimal form of the issue number and alters no
other character: the result is exactly the template's unique decomposition
into token-free segments re-joined with the decimal number in place of each
token occurrence, the segments re-join with the token to the original
template, and no segment contains the token. -/
theorem substituteVariables_spec (template : String) (issueNumber : Nat) :
    (substituteVariables template issueNumber).data
        = joinWith (toString issueNumber).data (splitOnIssueNumberTok template) ∧
    joinWith issueNumberTok.data (splitOnIssueNumberTok template) = template.data ∧
    ∀ seg ∈ splitOnIssueNumberTok template, ¬ issueNumberTok.data <:+: seg := by
  have htok : issueNumberTok.data ≠ [] := by decide
  refine ⟨?_, ?_, ?_⟩
  · exact replaceTokAux_eq_joinWith issueNumberTok.data (toString issueNumber).data htok
      template.data.length template.data (le_refl _)
  · exact joinWith_splitTokAux issueNumberTok.data htok
      template.data.length template.data (le_refl _)
  · exact splitTokAux_no_tok issueNumberTok.data htok
      template.data.length template.data (le_refl _)

/-- Witness for C8: in the template `"fix ${issueNumber}"` the leading
segment `"fix "` is token-free. -/
theorem substituteVariables_spec_witness :
    ¬ issueNumberTok.data <:+: ("fix ".data) :=
  (substituteVariables_spec "fix ${issueNumber}" 42).2.2 "fix ".data (by decide)

/-! ### Codex argv assembly (claim C9) -/

/-- `buildIssuePrompt` (`prompt.ts` lines 58–65) applied to the loaded
template text: the template with every `${issueNumber}` occurrence replaced
by the decimal issue number.  Template loading itself is filesystem I/O and
is passed in as the resolved template text. -/
def buildIssuePrompt (template : String) (issueNumber : Nat) : String :=
  substituteVariables template issueNumber

/-- The `codexArgs` array of `CodexProcessor.processIssue`
(`codex.ts` lines 35–41): binary path, `exec`, the two flags, then the prompt
as the last positional argument. -/
def codexArgs (codexPath commandPrompt : String) : List String :=
  [codexPath, "exec", "--full-auto", "--dangerously-bypass-approvals-and-sandbox",
   commandPrompt]

/-- The argv handed to `spawnProcess` for a Codex invocation on a given
template and issue number. -/
def codexSpawnArgv (codexPath template : String) (issueNumber : Nat) : List String :=
  codexArgs codexPath (buildIssuePrompt template issueNumber)

/-- **C9.** For every Codex invocation, the argv handed to `spawnProcess` is
the configured codex binary path followed by `exec`, `--full-auto`,
`--dangerously-bypass-approvals-and-sandbox`, with the loaded prompt text
(the template with `${issueNumber}` substituted) as the last positional
argument. -/
theorem codexSpawnArgv_spec (codexPath template : String) (issueNumber : Nat) :
    codexSpawnArgv codexPath template issueNumber
        = [codexPath, "exec", "--full-auto", "--dangerously-bypass-approvals-and-sandbox",
           substituteVariables template issueNumber] ∧
    (codexSpawnArgv codexPath template issueNumber).getLast?
        = some (substituteVariables template issueNumber) ∧
    (codexSpawnArgv codexPath template issueNumber).head? = some codexPath := by
  refine ⟨rfl, ?_, rfl⟩
  rfl

/-! ### The scheduler (claims C1 and C2)

`ImploidOrchestrator.scheduleIssues` and `reserveIssueSlots`
(`orchestrator.ts` lines 142–207).  The clock is passed in as `nowIso` (used
for both the branch timestamp and `start_time`); launching a processor is
recorded in the `launched` list instead of spawning a task; `saveStates`
becomes a `saveSnapshot` event carrying the store it would persist. -/

/-- A GitHub issue as the scheduler sees it: its number and the annotated
repository name. -/
structure Issue : Type where
  number : Nat
  repo_name : Option String := none
  deriving DecidableEq, Repr

/-- An observable scheduler side effect: a `saveStates` call, with the store
snapshot it persists. -/
inductive SchedEvent : Type
  | saveSnapshot (m : StateMap)
  deriving DecidableEq, Repr

/-- The `IssueState` constructed at reservation time (`orchestrator.ts`
lines 192–201): status `running`, a fresh branch name, `start_time = now`,
the allocated agent index, the candidate's repository, a null session id. -/
def reservedIssueState (issueNumber : Nat) (processorName : String) (agentIndex : Nat)
    (nowIso repoName : String) : IssueState :=
  { issue_number := issueNumber
    status := "running"
    branch := createIssueBranchName issueNumber processorName nowIso nowIso
    start_time := nowIso
    agent_index := some (some agentIndex)
    repo_name := some (some repoName)
    session_id := some none
    processor_name := processorName }

/-- The first loop of `reserveIssueSlots` (lines 181–187): one agent slot per
enabled processor, all computed against the same store; `none` as soon as any
processor has no free slot. -/
def allProcAllocations (m : StateMap) (procs : List String) (maxConcurrent : Nat) :
    Option (List (String × Nat)) :=
  match procs with
  | [] => some []
  | p :: rest =>
      match getAvailableAgentIndex m p maxConcurrent with
      | none => none
      | some i => (allProcAllocations m rest maxConcurrent).map (fun as => (p, i) :: as)

/-- `reserveIssueSlots` (lines 176–207): if every enabled processor yields a
slot, insert a running entry for each and save once; otherwise leave the
store untouched and report failure. -/
def reserveIssueSlots (procs : List String) (maxConcurrent : Nat)
    (nowIso githubRepo : String) (m : StateMap) (issue : Issue) :
    Option (List (String × Nat)) × StateMap × List SchedEvent :=
  match allProcAllocations m procs maxConcurrent with
  | none => (none, m, [])
  | some allocs =>
      let repoName := issue.repo_name.getD githubRepo
      let m1 := allocs.foldl
        (fun acc pa =>
          setState acc issue.number pa.1
            (reservedIssueState issue.number pa.1 pa.2 nowIso repoName)) m
      (some allocs, m1, [SchedEvent.saveSnapshot m1])

/-- The result of a scheduling tick: the store, the issues launched with
their per-processor slot allocations, and the save events. -/
structure SchedResult : Type where
  store : StateMap
  launched : List (Nat × List (String × Nat))
  events : List SchedEvent
  deriving DecidableEq, Repr

/-- `remainingCapacity` (line 144): `maxConcurrent` minus the size of the
`Set` of active issue numbers; an integer, since the store may hold more
active issues than the cap. -/
def remainingCapacity (maxConcurrent : Nat) (m : StateMap) : Int :=
  (maxConcurrent : Int) - (jsSetList (getActiveIssueNumbers m)).length

/-- The candidate loop of `scheduleIssues` (lines 157–171): stop when the
remaining capacity is exhausted; skip (with a warning) candidates whose
reservation fails; count and record successful reservations. -/
def schedLoop (procs : List String) (maxConcurrent : Nat) (nowIso githubRepo : String) :
    List Issue → StateMap → List Nat → Int → SchedResult
  | [], m, _, _ => ⟨m, [], []⟩
  | issue :: rest, m, active, remaining =>
      if remaining ≤ 0 then ⟨m, [], []⟩
      else
        match reserveIssueSlots procs maxConcurrent nowIso githubRepo m issue with
        | (none, m1, evs1) =>
            let r := schedLoop procs maxConcurrent nowIso githubRepo rest m1 active remaining
            ⟨r.store, r.launched, evs1 ++ r.events⟩
        | (some allocs, m1, evs1) =>
            let r := schedLoop procs maxConcurrent nowIso githubRepo rest m1
              (if issue.number ∈ active then active else active ++ [issue.number])
              (remaining - 1)
            ⟨r.store, (issue.number, allocs) :: r.launched, evs1 ++ r.events⟩

/-- `ImploidOrchestrator.scheduleIssues` (lines 142–174): compute the active
set and remaining capacity, return untouched when saturated, filter out
already-active candidates, then run the reservation loop. -/
def scheduleIssues (maxConcurrent : Nat) (procs : List String)
    (githubRepo nowIso : String) (m : StateMap) (issues : List Issue) : SchedResult :=
  if remainingCapacity maxConcurrent m ≤ 0 then ⟨m, [], []⟩
  else
    let active := jsSetList (getActiveIssueNumbers m)
    let candidateIssues := issues.filter (fun iss => !(active.contains iss.number))
    if candidateIssues.isEmpty then ⟨m, [], []⟩
    else
      schedLoop procs maxConcurrent nowIso githubRepo candidateIssues m active
        (remainingCapacity maxConcurrent m)

/-- The distinct issue numbers of active states, across all processors, as
the spec describes them. -/
def specActiveIssueNumbers (m : StateMap) : Finset Nat :=
  ((m.filter (fun e => isActive e.2)).map (fun e => e.2.issue_number)).toFinset

/-- `jsSetList` has the cardinality of the underlying set of elements. -/
theorem length_jsSetList_eq_card (l : List Nat) :
    (jsSetList l).length = l.toFinset.card := by
  have h2 : (jsSetList l).toFinset = l.toFinset := by
    ext x
    simp [List.mem_toFinset, mem_jsSetList]
  rw [← List.toFinset_card_of_nodup (jsSetList_nodup l), h2]

/-- Membership in the code's active-number list agrees with the spec's
distinct active set. -/
theorem mem_getActiveIssueNumbers_iff (m : StateMap) (x : Nat) :
    x ∈ getActiveIssueNumbers m ↔ x ∈ specActiveIssueNumbers m := by
  unfold getActiveIssueNumbers specActiveIssueNumbers getActiveStates
  rw [mem_jsSetList]
  simp only [List.mem_toFinset, List.mem_map, List.mem_filter]
  constructor
  · rintro ⟨st, ⟨⟨e, he, rfl⟩, hact⟩, rfl⟩
    exact ⟨e, ⟨he, hact⟩, rfl⟩
  · rintro ⟨e, ⟨he, hact⟩, rfl⟩
    exact ⟨e.2, ⟨⟨e, he, rfl⟩, hact⟩, rfl⟩

/-- The code's `Set` of active numbers has the cardinality of the spec's
distinct active set. -/
theorem remainingCapacity_eq_spec (maxConcurrent : Nat) (m : StateMap) :
    remainingCapacity maxConcurrent m
      = (maxConcurrent : Int) - (specActiveIssueNumbers m).card := by
  unfold remainingCapacity
  have h : (jsSetList (getActiveIssueNumbers m)).length = (specActiveIssueNumbers m).card := by
    rw [length_jsSetList_eq_card]
    congr 1
    ext x
    rw [List.mem_toFinset, mem_getActiveIssueNumbers_iff]
  rw [h]

/-- Every launched issue of the candidate loop comes from the candidate
list. -/
theorem schedLoop_launched_sub (procs : List String) (maxConcurrent : Nat)
    (nowIso githubRepo : String) :
    ∀ (cands : List Issue) (m : StateMap) (active : List Nat) (remaining : Int)
      (n : Nat) (allocs : List (String × Nat)),
      (n, allocs) ∈
        (schedLoop procs maxConcurrent nowIso githubRepo cands m active remaining).launched →
      ∃ iss ∈ cands, iss.number = n := by
  intro cands
  induction cands with
  | nil =>
      intro m active remaining n allocs h
      simp [schedLoop] at h
  | cons issue rest ih =>
      intro m active remaining n allocs h
      unfold schedLoop at h
      by_cases hr : remaining ≤ 0
      · rw [if_pos hr] at h
        simp at h
      · rw [if_neg hr] at h
        rcases hres : reserveIssueSlots procs maxConcurrent nowIso githubRepo m issue
          with ⟨o, m1, evs1⟩
        rw [hres] at h
        cases o with
        | none =>
            simp only at h
            obtain ⟨iss, hiss, hn⟩ := ih m1 active remaining n allocs h
            exact ⟨iss, List.mem_cons_of_mem issue hiss, hn⟩
        | some allocs' =>
            simp only at h
            rcases List.mem_cons.mp h with heq | h'
            · injection heq with h1 h2
              exact ⟨issue, List.mem_cons_self issue rest, h1.symm⟩
            · obtain ⟨iss, hiss, hn⟩ := ih m1 _ (remaining - 1) n allocs h'
              exact ⟨iss, List.mem_cons_of_mem issue hiss, hn⟩

/-- **C1.** At each scheduler tick the remaining capacity is `maxConcurrent`
minus the number of distinct active issue numbers across all processors; if
that difference is ≤ 0 the tick leaves the store untouched, launches nothing
and saves nothing; and no issue whose number is already active under any
processor is ever reserved or launched. -/
theorem scheduleIssues_spec (maxConcurrent : Nat) (procs : List String)
    (githubRepo nowIso : String) (m : StateMap) (issues : List Issue) :
    remainingCapacity maxConcurrent m
        = (maxConcurrent : Int) - (specActiveIssueNumbers m).card ∧
    (remainingCapacity maxConcurrent m ≤ 0 →
      scheduleIssues maxConcurrent procs githubRepo nowIso m issues = ⟨m, [], []⟩) ∧
    (∀ n allocs,
      (n, allocs) ∈
        (scheduleIssues maxConcurrent procs githubRepo nowIso m issues).launched →
      n ∉ specActiveIssueNumbers m) := by
  refine ⟨remainingCapacity_eq_spec maxConcurrent m, ?_, ?_⟩
  · intro h
    unfold scheduleIssues
    rw [if_pos h]
  · intro n allocs h
    unfold scheduleIssues at h
    by_cases hr : remainingCapacity maxConcurrent m ≤ 0
    · rw [if_pos hr] at h
      simp at h
    · rw [if_neg hr] at h
      simp only at h
      by_cases hc :
          (issues.filter
            (fun iss => !((jsSetList (getActiveIssueNumbers m)).contains iss.number))).isEmpty
      · rw [if_pos hc] at h
        simp at h
      · rw [if_neg hc] at h
        obtain ⟨iss, hiss, rfl⟩ :=
          schedLoop_launched_sub procs maxConcurrent nowIso githubRepo _ m _ _ n allocs h
        rcases List.mem_filter.mp hiss with ⟨-, hkeep⟩
        intro hactive
        have hmem2 : iss.number ∈ jsSetList (getActiveIssueNumbers m) := by
          rw [mem_jsSetList, mem_getActiveIssueNumbers_iff]
          exact hactive
        have hkeep' : iss.number ∉ jsSetList (getActiveIssueNumbers m) := by
          simpa using hkeep
        exact hkeep' hmem2

/-- A candidate issue used in the concrete scheduler runs. -/
def c2Issue : Issue := { number := 6 }

/-- A slot allocation fails exactly when some enabled processor has no free
agent index. -/
theorem allProcAllocations_none_iff (m : StateMap) (maxConcurrent : Nat) :
    ∀ procs : List String,
      allProcAllocations m procs maxConcurrent = none ↔
        ∃ p ∈ procs, getAvailableAgentIndex m p maxConcurrent = none := by
  intro procs
  induction procs with
  | nil => simp [allProcAllocations]
  | cons p rest ih =>
      unfold allProcAllocations
      rcases hav : getAvailableAgentIndex m p maxConcurrent with - | i
      · simp only []
        constructor
        · intro _
          exact ⟨p, List.mem_cons_self p rest, hav⟩
        · intro _
          trivial
      · simp only []
        rw [Option.map_eq_none', ih]
        constructor
        · rintro ⟨q, hq, hqnone⟩
          exact ⟨q, List.mem_cons_of_mem p hq, hqnone⟩
        · rintro ⟨q, hq, hqnone⟩
          rcases List.mem_cons.mp hq with rfl | hq'
          · rw [hav] at hqnone
            cases hqnone
          · exact ⟨q, hq', hqnone⟩

/-- A successful slot allocation pairs each processor (in order) with exactly
its available agent index, computed against the unchanged store. -/
theorem allProcAllocations_mem (m : StateMap) (maxConcurrent : Nat) :
    ∀ (procs : List String) (allocs : List (String × Nat)),
      allProcAllocations m procs maxConcurrent = some allocs →
      (∀ pa ∈ allocs, getAvailableAgentIndex m pa.1 maxConcurrent = some pa.2) ∧
      (∀ p ∈ procs, ∃ i, (p, i) ∈ allocs ∧
        getAvailableAgentIndex m p maxConcurrent = some i) := by
  intro procs
  induction procs with
  | nil =>
      intro allocs h
      simp only [allProcAllocations] at h
      cases h
      exact ⟨fun pa hpa => absurd hpa (List.not_mem_nil pa), fun p hp => absurd hp (List.not_mem_nil p)⟩
  | cons p rest ih =>
      intro allocs h
      unfold allProcAllocations at h
      rcases hav : getAvailableAgentIndex m p maxConcurrent with - | i
      · rw [hav] at h
        cases h
      · rw [hav] at h
        simp only [] at h
        rcases Option.map_eq_some'.mp h with ⟨as, has, rfl⟩
        obtain ⟨ih1, ih2⟩ := ih as has
        constructor
        · intro pa hpa
          rcases List.mem_cons.mp hpa with rfl | hpa'
          · exact hav
          · exact ih1 pa hpa'
        · intro q hq
          rcases List.mem_cons.mp hq with rfl | hq'
          · exact ⟨i, List.mem_cons_self _ _, hav⟩
          · obtain ⟨j, hj1, hj2⟩ := ih2 q hq'
            exact ⟨j, List.mem_cons_of_mem _ hj1, hj2⟩

/-- Composite keys with the same issue number and different processors
differ. -/
theorem makeStateKey_proc_inj {n : Nat} {p q : String}
    (h : makeStateKey n p = makeStateKey n q) : p = q := by
  unfold makeStateKey at h
  have hd := congrArg String.data h
  simp only [String.data_append] at hd
  exact String.ext (List.append_cancel_left hd)

/-- The reservation fold does not touch entries of processors outside the
allocation list. -/
theorem getState_reserveFold_other (n : Nat) (nowIso repoName : String) :
    ∀ (allocs : List (String × Nat)) (m : StateMap) (p : String),
      (∀ pa ∈ allocs, pa.1 ≠ p) →
      getState
        (allocs.foldl
          (fun acc pa =>
            setState acc n pa.1 (reservedIssueState n pa.1 pa.2 nowIso repoName)) m) n p
        = getState m n p := by
  intro allocs
  induction allocs with
  | nil => intro m p _; rfl
  | cons pa rest ih =>
      intro m p hne
      rw [List.foldl_cons]
      rw [ih _ p (fun pa' hpa' => hne pa' (List.mem_cons_of_mem pa hpa'))]
      unfold getState setState
      exact lookupKey_mapSet_other m _ _ _
        (fun heq => hne pa (List.mem_cons_self pa rest) (makeStateKey_proc_inj heq).symm)

/-- After the reservation fold, each allocated processor's entry holds the
freshly reserved running state. -/
theorem getState_reserveFold_mem (n : Nat) (nowIso repoName : String) :
    ∀ (allocs : List (String × Nat)) (m : StateMap) (p : String) (i : Nat),
      (p, i) ∈ allocs →
      (∀ pa ∈ allocs, pa.1 = p → pa.2 = i) →
      getState
        (allocs.foldl
          (fun acc pa =>
            setState acc n pa.1 (reservedIssueState n pa.1 pa.2 nowIso repoName)) m) n p
        = some (reservedIssueState n p i nowIso repoName) := by
  intro allocs
  induction allocs with
  | nil =>
      intro m p i hmem _
      exact absurd hmem (List.not_mem_nil _)
  | cons pa rest ih =>
      intro m p i hmem huniq
      rw [List.foldl_cons]
      by_cases hrest : ∃ pa' ∈ rest, pa'.1 = p
      · obtain ⟨pa', hpa', hp'⟩ := hrest
        have hval : pa'.2 = i := huniq pa' (List.mem_cons_of_mem pa hpa') hp'
        have hmem' : (p, i) ∈ rest := by
          have : pa' = (p, i) := by
            rcases pa' with ⟨a, b⟩
            simp only at hp' hval
            rw [hp', hval]
          exact this ▸ hpa'
        exact ih _ p i hmem'
          (fun pa'' hpa'' hp'' => huniq pa'' (List.mem_cons_of_mem pa hpa'') hp'')
      · push_neg at hrest
        have hpa : pa = (p, i) := by
          rcases List.mem_cons.mp hmem with heq | hmem'
          · exact heq.symm
          · exact absurd rfl (hrest (p, i) hmem')
        subst hpa
        rw [getState_reserveFold_other n nowIso repoName rest _ p hrest]
        unfold getState setState
        have hforced :
            ({ reservedIssueState n p i nowIso repoName with processor_name := p })
              = reservedIssueState n p i nowIso repoName := rfl
        rw [hforced]
        exact lookupKey_mapSet_self _ _ _

/-- **C2.** Per-issue reservation is all-or-nothing: if any enabled processor
has no available agent index, no state entry is created for the issue, the
store is returned unchanged and nothing is saved (the scheduler then moves to
the next candidate); otherwise a `status = running` entry is inserted for
every enabled processor and a single save of the store — already containing
all those entries — follows. -/
theorem reserveIssueSlots_spec (procs : List String) (maxConcurrent : Nat)
    (nowIso githubRepo : String) (m : StateMap) (issue : Issue) :
    ((∃ p ∈ procs, getAvailableAgentIndex m p maxConcurrent = none) →
      reserveIssueSlots procs maxConcurrent nowIso githubRepo m issue = (none, m, [])) ∧
    ((∀ p ∈ procs, ∃ i, getAvailableAgentIndex m p maxConcurrent = some i) →
      ∃ allocs m1,
        reserveIssueSlots procs maxConcurrent nowIso githubRepo m issue
            = (some allocs, m1, [SchedEvent.saveSnapshot m1]) ∧
        ∀ p ∈ procs, ∃ i,
          getAvailableAgentIndex m p maxConcurrent = some i ∧
          getState m1 issue.number p
            = some (reservedIssueState issue.number p i nowIso
                (issue.repo_name.getD githubRepo))) := by
  constructor
  · intro h
    have hnone : allProcAllocations m procs maxConcurrent = none :=
      (allProcAllocations_none_iff m maxConcurrent procs).mpr h
    unfold reserveIssueSlots
    rw [hnone]
  · intro h
    rcases halloc : allProcAllocations m procs maxConcurrent with - | allocs
    · obtain ⟨p, hp, hpnone⟩ := (allProcAllocations_none_iff m maxConcurrent procs).mp halloc
      obtain ⟨i, hi⟩ := h p hp
      rw [hpnone] at hi
      cases hi
    · obtain ⟨hall, hevery⟩ := allProcAllocations_mem m maxConcurrent procs allocs halloc
      refine ⟨allocs,
        allocs.foldl
          (fun acc pa =>
            setState acc issue.number pa.1
              (reservedIssueState issue.number pa.1 pa.2 nowIso
                (issue.repo_name.getD githubRepo))) m,
        ?_, ?_⟩
      · unfold reserveIssueSlots
        rw [halloc]
      · intro p hp
        obtain ⟨i, hmem, hav⟩ := hevery p hp
        refine ⟨i, hav, ?_⟩
        apply getState_reserveFold_mem issue.number nowIso _ allocs m p i hmem
        intro pa hpa hpap
        have h1 := hall pa hpa
        rw [hpap, hav] at h1
        injection h1 with h1
        exact h1.symm

/-- Witness for C2: with `maxConcurrent = 1` and claude's only slot taken by
issue 5, reserving issue 6 across claude and codex aborts with the store
unchanged and no save. -/
theorem reserveIssueSlots_spec_witness :
    reserveIssueSlots ["claude", "codex"] 1 "2026-01-02T03:04:05.678Z" "owner/repo"
        c3Store c2Issue
      = (none, c3Store, []) :=
  (reserveIssueSlots_spec ["claude", "codex"] 1 "2026-01-02T03:04:05.678Z" "owner/repo"
      c3Store c2Issue).1
    ⟨"claude", by decide, by decide⟩

/-- Witness for C1: with `maxConcurrent = 1` and issue 5 already active, the
remaining capacity is 0 and the tick changes nothing. -/
theorem scheduleIssues_spec_witness :
    scheduleIssues 1 ["claude"] "owner/repo" "2026-01-02T03:04:05.678Z" c3Store [c2Issue]
      = ⟨c3Store, [], []⟩ :=
  (scheduleIssues_spec 1 ["claude"] "owner/repo" "2026-01-02T03:04:05.678Z"
    c3Store [c2Issue]).2.1 (by decide)

end Imploid
